import Mathlib

/-!
Verification development for the `pktfmt` packet-diagram renderer.

The definitions below are a shallow embedding of `src/pktfmt/renderer.py`
and `src/pktfmt/parser.py`.  Python strings are modelled as `List Char`,
Python lists as Lean lists, and the row-packing `while` loop as a
fuel-indexed recursion (`none` models non-termination within the fuel
bound; the fuel `bits` is exactly the loop bound argued in the source's
spec).  Machine integers do not occur: all quantities are small
non-negative Python ints, modelled as `Nat`.
-/

namespace Pktfmt

/-- A field's width: a fixed bit count or the `"*"` variable marker
(`Field.bits` in `parser.py` is `int` or the string `"*"`). -/
inductive FieldBits where
  | fixed : Nat → FieldBits
  | var : FieldBits
deriving DecidableEq

/-- `parser.Field`: a packet field with a name and bit width. -/
structure Field where
  name : List Char
  bits : FieldBits
deriving DecidableEq

/-- `Field.is_variable` property. -/
def Field.is_variable (f : Field) : Bool :=
  match f.bits with
  | FieldBits.var => true
  | FieldBits.fixed _ => false

/-- `renderer.FieldSegment`: a segment of a field within a single row. -/
structure FieldSegment where
  name : List Char
  width : Nat
  is_variable : Bool
  is_continuation : Bool
  continues_next : Bool
deriving DecidableEq

/-- `renderer.BoxChars`: box drawing character set (all glyphs are single
characters in the source, so each entry is a `Char`). -/
structure BoxChars where
  h : Char
  v : Char
  tl : Char
  tr : Char
  bl : Char
  br : Char
  tj : Char
  bj : Char
  lj : Char
  rj : Char
  x : Char
  v_var : Char
deriving DecidableEq

/-- `renderer.ASCII_CHARS`. -/
def ASCII_CHARS : BoxChars :=
  ⟨'-', '|', '+', '+', '+', '+', '+', '+', '+', '+', '+', ':'⟩

/-- `renderer.UNICODE_CHARS`. -/
def UNICODE_CHARS : BoxChars :=
  ⟨'─', '│', '┌', '┐', '└', '┘', '┬', '┴', '├', '┤', '┼', '┊'⟩

/-- `renderer.UNICODE_BOLD_CHARS`. -/
def UNICODE_BOLD_CHARS : BoxChars :=
  ⟨'━', '┃', '┏', '┓', '┗', '┛', '┳', '┻', '┣', '┫', '╋', '┇'⟩

/-- `renderer.get_box_chars`: dictionary lookup with ASCII default. -/
def get_box_chars (style : List Char) : BoxChars :=
  if style = "ascii".toList then ASCII_CHARS
  else if style = "unicode".toList then UNICODE_CHARS
  else if style = "bold".toList then UNICODE_BOLD_CHARS
  else ASCII_CHARS

/-- Total bit width of a row of segments. -/
def rowWidth (row : List FieldSegment) : Nat :=
  (row.map (fun seg => seg.width)).sum

/-- The mutable loop state of `render_diagram`'s packing pass:
`rows`, `current_row`, `current_bit`. -/
structure PackState where
  rows : List (List FieldSegment)
  cur : List FieldSegment
  curBit : Nat
deriving DecidableEq

/-- The `while bits_remaining > 0` loop of `render_diagram` for one
fixed-width field, fuel-indexed (one unit of fuel per loop iteration;
`none` models the loop failing to finish within the given fuel).
Arguments after `bpr`: fuel, `bits_remaining`, `¬ is_first_part`
is passed as `first = is_first_part`, and the loop state. -/
def packFixedAux (name : List Char) (bpr : Nat) :
    Nat → Nat → Bool → PackState → Option PackState
  | _, 0, _, st => some st
  | 0, _ + 1, _, _ => none
  | fuel + 1, n + 1, first, st =>
    let space := bpr - st.curBit
    if n + 1 ≤ space then
      let seg : FieldSegment := ⟨name, n + 1, false, !first, false⟩
      if st.curBit + (n + 1) = bpr then
        some ⟨st.rows ++ [st.cur ++ [seg]], [], 0⟩
      else
        some ⟨st.rows, st.cur ++ [seg], st.curBit + (n + 1)⟩
    else
      packFixedAux name bpr fuel (n + 1 - space) false
        ⟨st.rows ++ [st.cur ++ [⟨name, space, false, !first, true⟩]], [], 0⟩

/-- The `for field in fields` loop of `render_diagram` (packing pass).
A fixed field of `n` bits is packed with fuel `n`, which suffices for
every state reachable with `bpr ≥ 1` (proved below). -/
def packFields (bpr : Nat) : List Field → PackState → Option PackState
  | [], st => some st
  | f :: fs, st =>
    match f.bits with
    | FieldBits.var =>
      let st1 := if st.cur = [] then st else ⟨st.rows ++ [st.cur], [], 0⟩
      packFields bpr fs
        ⟨st1.rows ++ [[⟨f.name, bpr, true, false, false⟩]], st1.cur, st1.curBit⟩
    | FieldBits.fixed n =>
      match packFixedAux f.name bpr n n true st with
      | none => none
      | some st1 => packFields bpr fs st1

/-- The `if current_row: rows.append(current_row)` step after the field
loop. -/
def finalizeRows (st : PackState) : List (List FieldSegment) :=
  if st.cur = [] then st.rows else st.rows ++ [st.cur]

/-- The whole packing pass of `render_diagram`: fields to rows. -/
def buildRows (bpr : Nat) (fields : List Field) :
    Option (List (List FieldSegment)) :=
  match packFields bpr fields ⟨[], [], 0⟩ with
  | none => none
  | some st => some (finalizeRows st)

/-- Decimal digits of a natural number, as in Python `str(n)`. -/
def natChars (n : Nat) : List Char := Nat.toDigits 10 n

/-- Python `f"{n:<19}"`: left-align in a 19-character field. -/
def padRight19 (s : List Char) : List Char :=
  s ++ List.replicate (19 - s.length) ' '

/-- Python whitespace for `str.strip` / `str.rstrip`. -/
def isPySpace (c : Char) : Bool :=
  c = ' ' || c = '\t' || c = '\n' || c = '\x0d' || c = '\x0b' || c = '\x0c'

/-- Python `str.rstrip()`. -/
def rstrip (s : List Char) : List Char :=
  (s.reverse.dropWhile isPySpace).reverse

/-- Python `str.strip()`. -/
def strip (s : List Char) : List Char :=
  rstrip (s.dropWhile isPySpace)

/-- The byte-index line of `_generate_ruler` before slicing: starts with
one space, then one 19-character left-aligned label per 8-bit group. -/
def byteLineRaw (bpr : Nat) : List Char :=
  (List.range (bpr / 8)).foldl (fun acc k => acc ++ padRight19 (natChars k)) [' ']

/-- The bit-offset line of `_generate_ruler` before the final `rstrip`:
starts with one space, then `f"{i % 10} "` per bit. -/
def bitLineRaw (bpr : Nat) : List Char :=
  (List.range bpr).foldl (fun acc i => acc ++ [Nat.digitChar (i % 10), ' ']) [' ']

/-- `renderer._generate_ruler`: the byte line is sliced to `2*bpr`
characters and right-stripped; the bit line is right-stripped. -/
def generate_ruler (bpr : Nat) : List (List Char) :=
  [rstrip ((byteLineRaw bpr).take (bpr * 2)), rstrip (bitLineRaw bpr)]

/-- Per-bit flag list for a row: `f seg` replicated over each segment's
width (the `prev_continues_map` / `curr_continuation_map` construction of
`_make_separator_v2` before padding). -/
def contMap (f : FieldSegment → Bool) : List FieldSegment → List Bool
  | [] => []
  | seg :: rest => List.replicate seg.width (f seg) ++ contMap f rest

/-- The `while len(...) < bits_per_row: append(False)` padding. -/
def padTo (bpr : Nat) (l : List Bool) : List Bool :=
  l ++ List.replicate (bpr - l.length) false

/-- `prev_continues_map` of `_make_separator_v2`. -/
def prev_continues_map (prevRow : List FieldSegment) (bpr : Nat) : List Bool :=
  padTo bpr (contMap (fun seg => seg.continues_next) prevRow)

/-- `curr_continuation_map` of `_make_separator_v2`. -/
def curr_continuation_map (row : List FieldSegment) (bpr : Nat) : List Bool :=
  padTo bpr (contMap (fun seg => seg.is_continuation) row)

/-- Cumulative segment end positions starting from `pos` (the loop that
fills `prev_boundaries` / `curr_boundaries`). -/
def boundariesFrom : Nat → List FieldSegment → List Nat
  | _, [] => []
  | pos, seg :: rest => (pos + seg.width) :: boundariesFrom (pos + seg.width) rest

/-- A row's boundary set `{0} ∪ {cumulative widths}` (the source uses a
Python `set`, of which only membership is observed). -/
def rowBoundaries (row : List FieldSegment) : List Nat :=
  0 :: boundariesFrom 0 row

/-- The junction character `_make_separator_v2` emits at the start of bit
column `bit`. -/
def sepJunctionChar (row prevRow : List FieldSegment) (bpr bit : Nat) : Char :=
  if bit = 0 then '+'
  else if bit ∈ rowBoundaries prevRow ∨ bit ∈ rowBoundaries row then '+'
  else if (prev_continues_map prevRow bpr).getD (bit - 1) false
          && (curr_continuation_map row bpr).getD bit false then ' '
  else '+'

/-- The line-or-space character `_make_separator_v2` emits for bit column
`bit`. -/
def sepLineChar (row prevRow : List FieldSegment) (bpr bit : Nat) : Char :=
  if (prev_continues_map prevRow bpr).getD bit false
     && (curr_continuation_map row bpr).getD bit false then ' ' else '-'

/-- `renderer._make_separator_v2`: per bit column one junction character
and one line character, then the final `"+"`.  The source accumulates a
string over `range(bits_per_row)` appending exactly these two characters
per iteration; the `chars` argument is accepted but never used (the
literal characters `'+'`, `'-'`, `' '` are emitted). -/
def make_separator_v2 (row prevRow : List FieldSegment) (chars : BoxChars)
    (bpr : Nat) : List Char :=
  ((List.range bpr).map
    (fun bit => [sepJunctionChar row prevRow bpr bit, sepLineChar row prevRow bpr bit])).flatten
    ++ ['+']

/-- The `"+" + "-+" * seg.width` full-width border used for the first
row's top border and for the bottom separator. -/
def simpleBorder (row : List FieldSegment) : List Char :=
  '+' :: (row.map (fun seg => (List.replicate seg.width ['-', '+']).flatten)).flatten

/-- `renderer._make_separator`.  For the first row it returns the simple
top border; otherwise the source computes and discards a first attempt
(dead local string, no effect) and returns `_make_separator_v2`.
`prevRow` is `None` exactly on the first-row call and is never read
then (modelled by `Option` with a default that is never reached). -/
def make_separator (row : List FieldSegment) (prevRow : Option (List FieldSegment))
    (chars : BoxChars) (isFirstRow : Bool) (bpr : Nat) : List Char :=
  if isFirstRow then simpleBorder row
  else make_separator_v2 row (prevRow.getD []) chars bpr

/-- `renderer._make_bottom_separator` (its `bits_per_row` argument is
unused in the source). -/
def make_bottom_separator (row : List FieldSegment) (chars : BoxChars)
    (bpr : Nat) : List Char :=
  simpleBorder row

/-- Python `str.center(width)` (CPython: the extra fill character goes to
the left exactly when both the margin and the width are odd; the string
is returned unchanged when it is at least `width` long). -/
def pyCenter (s : List Char) (width : Nat) : List Char :=
  if width ≤ s.length then s
  else
    let marg := width - s.length
    let left := marg / 2 + (marg &&& width &&& 1)
    List.replicate left ' ' ++ s ++ List.replicate (marg - left) ' '

/-- The `display_name` computed for one segment in `_render_field_row`
(the source's local `cell_width = seg.width * 2 - 1` is inlined; for the
width-0 segments that the packer never produces, Python's `-1` cell
width would behave differently from this `Nat` model, so the claims
below are stated for packed rows only). -/
def displayCell (seg : FieldSegment) : List Char :=
  if seg.continues_next then List.replicate (seg.width * 2 - 1) ' '
  else if seg.width * 2 - 1 < seg.name.length then seg.name.take (seg.width * 2 - 1)
  else pyCenter seg.name (seg.width * 2 - 1)

/-- `renderer._render_field_row`. -/
def render_field_row (row : List FieldSegment) (chars : BoxChars)
    (has_variable : Bool) : List Char :=
  let border := if has_variable then chars.v_var else chars.v
  row.foldl (fun acc seg => acc ++ displayCell seg ++ [border]) [border]

/-- The `for i, row in enumerate(rows)` rendering loop: separator above
each row, then its content line (`prev = none` encodes `i == 0`). -/
def rowsLines (chars : BoxChars) (bpr : Nat) :
    Option (List FieldSegment) → List (List FieldSegment) → List (List Char)
  | _, [] => []
  | prev, row :: rest =>
    make_separator row prev chars prev.isNone bpr
      :: render_field_row row chars (row.any (fun seg => seg.is_variable))
      :: rowsLines chars bpr (some row) rest

/-- `renderer.render_diagram` up to the final newline join: the list
`lines` (ruler lines if enabled, then per-row separator and content
lines, then the bottom separator when any row exists).  `none` models
the packing loop not terminating (possible only for `bpr = 0`). -/
def render_diagram_lines (fields : List Field) (bpr : Nat)
    (show_ruler : Bool) (style : List Char) : Option (List (List Char)) :=
  let chars := get_box_chars style
  match buildRows bpr fields with
  | none => none
  | some rows =>
    some ((if show_ruler then generate_ruler bpr else [])
      ++ rowsLines chars bpr none rows
      ++ (match rows.getLast? with
          | some lastRow => [make_bottom_separator lastRow chars bpr]
          | none => []))

/-- `renderer.render_diagram`: the joined output string. -/
def render_diagram (fields : List Field) (bpr : Nat)
    (show_ruler : Bool) (style : List Char) : Option (List Char) :=
  (render_diagram_lines fields bpr show_ruler style).map
    (fun lines => List.intercalate ['\n'] lines)

/-- Errors raised by `parser.parse_inline` (each carries the offending
token, as the source's messages do).  The `ValueError` raised for a
non-positive width inside the `try` block is caught by the enclosing
`except ValueError` and re-raised as the invalid-bit-width error, so a
non-positive width surfaces as `invalidBitWidth`, like a non-integer. -/
inductive InlineErr where
  | invalidFieldFormat (part : List Char)
  | emptyFieldName (part : List Char)
  | invalidBitWidth (bitsStr part : List Char)
  | noFields
deriving DecidableEq

/-- Python `int(s)` on an already-stripped string, restricted to the
forms the repository's inputs use: an optional sign followed by one or
more ASCII digits (Python additionally accepts underscores between
digits and non-ASCII digits; no claim depends on those). -/
def parsePyInt (s : List Char) : Option Int :=
  match s with
  | [] => none
  | '-' :: rest =>
    if rest ≠ [] && rest.all (fun c => c.isDigit) then
      some (-(Int.ofNat (rest.foldl (fun acc c => acc * 10 + (c.toNat - '0'.toNat)) 0)))
    else none
  | '+' :: rest =>
    if rest ≠ [] && rest.all (fun c => c.isDigit) then
      some (Int.ofNat (rest.foldl (fun acc c => acc * 10 + (c.toNat - '0'.toNat)) 0))
    else none
  | _ =>
    if s.all (fun c => c.isDigit) then
      some (Int.ofNat (s.foldl (fun acc c => acc * 10 + (c.toNat - '0'.toNat)) 0))
    else none

/-- Python `part.rsplit(":", 1)` for a string known to contain `':'`:
split at the last colon. -/
def rsplitColon (s : List Char) : List Char × List Char :=
  ((s.reverse.dropWhile (fun c => c ≠ ':')).drop 1 |>.reverse,
   (s.reverse.takeWhile (fun c => c ≠ ':')).reverse)

/-- The body of `parse_inline`'s loop for one non-empty stripped part. -/
def parsePart (part : List Char) : Except InlineErr Field :=
  if !part.contains ':' then Except.error (InlineErr.invalidFieldFormat part)
  else
    let p := rsplitColon part
    let name := strip p.1
    let bitsStr := strip p.2
    if name = [] then Except.error (InlineErr.emptyFieldName part)
    else if bitsStr = ['*'] then Except.ok ⟨name, FieldBits.var⟩
    else
      match parsePyInt bitsStr with
      | some b =>
        if b ≤ 0 then Except.error (InlineErr.invalidBitWidth bitsStr part)
        else Except.ok ⟨name, FieldBits.fixed b.toNat⟩
      | none => Except.error (InlineErr.invalidBitWidth bitsStr part)

/-- The `for part in definition.split(",")` loop of `parse_inline`:
empty (after stripping) parts are skipped, others are parsed and
appended in order. -/
def parseParts : List (List Char) → Except InlineErr (List Field)
  | [] => Except.ok []
  | part :: rest =>
    if strip part = [] then parseParts rest
    else
      match parsePart (strip part) with
      | Except.error e => Except.error e
      | Except.ok f =>
        match parseParts rest with
        | Except.error e => Except.error e
        | Except.ok fs => Except.ok (f :: fs)

/-- `parser.parse_inline`. -/
def parse_inline (definition : List Char) : Except InlineErr (List Field) :=
  match parseParts (definition.splitOn ',') with
  | Except.error e => Except.error e
  | Except.ok fields =>
    if fields = [] then Except.error InlineErr.noFields else Except.ok fields

/-- A decoded JSON value, as produced by Python's `json.loads` (floats
do not occur in any claim and are omitted; a Python `bool` is an
instance of `int`, which matters below). -/
inductive Json where
  | null : Json
  | bool : Bool → Json
  | num : Int → Json
  | str : List Char → Json
  | arr : List Json → Json
  | obj : List (List Char × Json) → Json

/-- Errors raised by `parser.parse_json` (iterating a non-list `fields`
value raises a Python `TypeError`; it is modelled as `fieldsNotArray`). -/
inductive JsonErr where
  | notObject
  | missingFieldsKey
  | fieldsNotArray
  | fieldNotObject (i : Nat)
  | missingName (i : Nat)
  | missingBits (i : Nat)
  | bitsNotInt (name : Json)
  | bitsNotPositive (name : Json)
  | noFields

/-- The field `parse_json` builds: the source stores the raw `name`
value without inspecting it (it need not be a string, and an empty
string is accepted), so the model keeps the `Json` value. -/
structure JsonField where
  name : Json
  bits : FieldBits

/-- Python `dict` lookup on the decoded object (concrete inputs in this
development have no duplicate keys). -/
def jlookup : List (List Char × Json) → List Char → Option Json
  | [], _ => none
  | (k, v) :: rest, key => if k = key then some v else jlookup rest key

/-- The body of `parse_json`'s loop for entry `i`.  `isinstance(bits, int)`
is true for Python bools, so `true` is accepted as width 1 and `false`
is rejected as non-positive. -/
def parseJsonField (i : Nat) (j : Json) : Except JsonErr JsonField :=
  match j with
  | Json.obj kvs =>
    match jlookup kvs ("name".toList) with
    | none => Except.error (JsonErr.missingName i)
    | some nameV =>
      match jlookup kvs ("bits".toList) with
      | none => Except.error (JsonErr.missingBits i)
      | some bitsV =>
        match bitsV with
        | Json.str s =>
          if s = "*".toList then Except.ok ⟨nameV, FieldBits.var⟩
          else Except.error (JsonErr.bitsNotInt nameV)
        | Json.num n =>
          if n ≤ 0 then Except.error (JsonErr.bitsNotPositive nameV)
          else Except.ok ⟨nameV, FieldBits.fixed n.toNat⟩
        | Json.bool b =>
          if b then Except.ok ⟨nameV, FieldBits.fixed 1⟩
          else Except.error (JsonErr.bitsNotPositive nameV)
        | _ => Except.error (JsonErr.bitsNotInt nameV)
  | _ => Except.error (JsonErr.fieldNotObject i)

/-- The `for i, field_data in enumerate(data["fields"])` loop. -/
def parseJsonFields (i : Nat) : List Json → Except JsonErr (List JsonField)
  | [] => Except.ok []
  | j :: rest =>
    match parseJsonField i j with
    | Except.error e => Except.error e
    | Except.ok f =>
      match parseJsonFields (i + 1) rest with
      | Except.error e => Except.error e
      | Except.ok fs => Except.ok (f :: fs)

/-- `parser.parse_json` applied to an already-decoded JSON value (file
loading and `json.loads` itself are outside the model). -/
def parse_json (data : Json) : Except JsonErr (List JsonField) :=
  match data with
  | Json.obj kvs =>
    match jlookup kvs ("fields".toList) with
    | none => Except.error JsonErr.missingFieldsKey
    | some (Json.arr items) =>
      match parseJsonFields 0 items with
      | Except.error e => Except.error e
      | Except.ok fields =>
        if fields.isEmpty then Except.error JsonErr.noFields
        else Except.ok fields
    | some _ => Except.error JsonErr.fieldsNotArray
  | _ => Except.error JsonErr.notObject

/-! Claim-side vocabulary: definitions used to state the claims in the
language of the specification ("the segment occupying bit `i`", "a
segment boundary in either row", ...). -/

/-- The segment of a row occupying bit column `i`, if any (zero-width
segments occupy no column). -/
def segAt : List FieldSegment → Nat → Option FieldSegment
  | [], _ => none
  | seg :: rest, i => if i < seg.width then some seg else segAt rest (i - seg.width)

/-- "The segment occupying bit `i` exists and has flag `f`". -/
def segFlag (f : FieldSegment → Bool) (row : List FieldSegment) (i : Nat) : Bool :=
  match segAt row i with
  | some seg => f seg
  | none => false

/-- Bit column `i` is a pass-through blank between `prevRow` and `row`:
the segment occupying it above has `continues_next` and the segment
occupying it below has `is_continuation`. -/
def passBlank (prevRow row : List FieldSegment) (i : Nat) : Bool :=
  segFlag (fun seg => seg.continues_next) prevRow i
    && segFlag (fun seg => seg.is_continuation) row i

/-- Position `i` coincides with a segment boundary of either row. -/
def isBoundaryEither (prevRow row : List FieldSegment) (i : Nat) : Bool :=
  decide (i ∈ rowBoundaries prevRow) || decide (i ∈ rowBoundaries row)

/-- Total bit count of a field list (variable fields count 0). -/
def sumBits (fields : List Field) : Nat :=
  (fields.map (fun f =>
    match f.bits with
    | FieldBits.fixed n => n
    | FieldBits.var => 0)).sum

/-- Sum of all segment widths held in a packing state. -/
def sumWidths (st : PackState) : Nat :=
  (st.rows.map rowWidth).sum + rowWidth st.cur

/-- Every already-closed row is exactly full. -/
def FullRows (bpr : Nat) (rows : List (List FieldSegment)) : Prop :=
  ∀ row ∈ rows, rowWidth row = bpr

/-- Invariant of the packing state reachable with `bpr ≥ 1`. -/
structure Inv (bpr : Nat) (st : PackState) : Prop where
  curBit_lt : st.curBit < bpr
  cur_width : rowWidth st.cur = st.curBit
  cur_fixed : ∀ seg ∈ st.cur, seg.is_variable = false ∧ 1 ≤ seg.width
  rows_pos : ∀ row ∈ st.rows, ∀ seg ∈ row, 1 ≤ seg.width
  rows_var : ∀ row ∈ st.rows, ∀ seg ∈ row, seg.is_variable = true →
    seg.is_continuation = false ∧ seg.continues_next = false ∧
    seg.width = bpr ∧ row = [seg]

/-- The byte-index ruler line, written as the amended claim describes it:
a leading space, one decimal label per 8-bit group left-aligned in a
19-character field, the line truncated to `2*bitsPerRow` characters and
right-stripped. -/
def byteLineSpec (bpr : Nat) : List Char :=
  rstrip ((' ' :: ((List.range (bpr / 8)).map (fun k => padRight19 (natChars k))).flatten).take (bpr * 2))

/-- The bit-offset ruler line, written as the claim describes it: a
leading space and one two-character cell per bit whose digits repeat
0 through 9, right-stripped. -/
def bitLineSpec (bpr : Nat) : List Char :=
  rstrip (' ' :: ((List.range bpr).map (fun i => [Nat.digitChar (i % 10), ' '])).flatten)

/-- Modelled from the claim's words (claim C7): the byte-index line with
each label left-aligned in a field of 16 characters per 8-bit group
(two ruler characters per bit). -/
def byteLineClaim (bpr : Nat) : List Char :=
  rstrip ((' ' :: ((List.range (bpr / 8)).map
    (fun k => natChars k ++ List.replicate (16 - (natChars k).length) ' ')).flatten).take (bpr * 2))

/-! Generic list lemmas. -/

theorem getD_replicate {α : Type} (a d : α) (w i : Nat) :
    (List.replicate w a).getD i d = if i < w then a else d := by
  induction w generalizing i with
  | zero => simp [List.getD]
  | succ w ih =>
    cases i with
    | zero => simp [List.replicate]
    | succ i => simpa [List.replicate, Nat.succ_lt_succ_iff] using ih i

theorem foldl_append_eq {α β : Type} (g : β → List α) (l : List β) (init : List α) :
    l.foldl (fun acc b => acc ++ g b) init = init ++ (l.map g).flatten := by
  induction l generalizing init with
  | nil => simp
  | cons b l ih => simp [List.foldl, ih]

theorem flatten_pairs_length (g : Nat → List Char) (h : ∀ k, (g k).length = 2)
    (n : Nat) : ((List.range n).map g).flatten.length = 2 * n := by
  induction n with
  | zero => simp
  | succ n ih =>
    rw [List.range_succ, List.map_append, List.flatten_append, List.length_append, ih]
    simp [h]
    omega

theorem flatten_pairs_getD (g : Nat → List Char) (h : ∀ k, (g k).length = 2)
    (n k j : Nat) (hk : k < n) (hj : j < 2) (d : Char) :
    ((List.range n).map g).flatten.getD (2 * k + j) d = (g k).getD j d := by
  induction n with
  | zero => omega
  | succ n ih =>
    rw [List.range_succ, List.map_append, List.flatten_append]
    rcases Nat.lt_or_ge k n with hkn | hkn
    · rw [List.getD_append]
      · exact ih hkn
      · rw [flatten_pairs_length g h]
        omega
    · have hk_eq : k = n := by omega
      subst hk_eq
      rw [List.getD_append_right]
      · rw [flatten_pairs_length g h]
        have hidx : 2 * k + j - 2 * k = j := by omega
        rw [hidx]
        simp
      · rw [flatten_pairs_length g h]
        omega

theorem rowWidth_append (a b : List FieldSegment) :
    rowWidth (a ++ b) = rowWidth a + rowWidth b := by
  simp [rowWidth]

theorem rowWidth_nil_of_pos (l : List FieldSegment)
    (hpos : ∀ seg ∈ l, 1 ≤ seg.width) (hw : rowWidth l = 0) : l = [] := by
  cases l with
  | nil => rfl
  | cons seg rest =>
    have h1 := hpos seg (by simp)
    simp [rowWidth] at hw
    omega

/-! Per-column structure of the continuation maps. -/

theorem contMap_getD (f : FieldSegment → Bool) (row : List FieldSegment) (i : Nat) :
    (contMap f row).getD i false = segFlag f row i := by
  induction row generalizing i with
  | nil => simp [contMap, segFlag, segAt, List.getD]
  | cons seg rest ih =>
    by_cases hi : i < seg.width
    · rw [contMap, List.getD_append]
      · simp [getD_replicate, hi, segFlag, segAt]
      · simpa using hi
    · rw [contMap, List.getD_append_right]
      · simp only [List.length_replicate]
        rw [ih]
        simp [segFlag, segAt, hi]
      · simpa using Nat.le_of_not_lt hi

theorem padTo_getD (bpr : Nat) (l : List Bool) (i : Nat) :
    (padTo bpr l).getD i false = l.getD i false := by
  unfold padTo
  by_cases hi : i < l.length
  · rw [List.getD_append _ _ _ _ hi]
  · rw [List.getD_append_right _ _ _ _ (Nat.le_of_not_lt hi)]
    rw [getD_replicate, List.getD_eq_default _ _ (Nat.le_of_not_lt hi)]
    split <;> rfl

theorem prev_continues_map_getD (prevRow : List FieldSegment) (bpr i : Nat) :
    (prev_continues_map prevRow bpr).getD i false =
      segFlag (fun seg => seg.continues_next) prevRow i := by
  unfold prev_continues_map
  rw [padTo_getD, contMap_getD]

theorem curr_continuation_map_getD (row : List FieldSegment) (bpr i : Nat) :
    (curr_continuation_map row bpr).getD i false =
      segFlag (fun seg => seg.is_continuation) row i := by
  unfold curr_continuation_map
  rw [padTo_getD, contMap_getD]

theorem segFlag_eq_false_of_le (f : FieldSegment → Bool) (row : List FieldSegment)
    (i : Nat) (h : rowWidth row ≤ i) : segFlag f row i = false := by
  induction row generalizing i with
  | nil => rfl
  | cons seg rest ih =>
    simp [rowWidth] at h
    have hni : ¬ i < seg.width := by omega
    simp [segFlag, segAt, hni]
    have : rowWidth rest ≤ i - seg.width := by simp [rowWidth]; omega
    simpa [segFlag] using ih (i - seg.width) this

/-! Boundary sets. -/

theorem boundariesFrom_shift (row : List FieldSegment) (p : Nat) :
    ∀ q, boundariesFrom (p + q) row = (boundariesFrom q row).map (fun b => p + b) := by
  induction row with
  | nil => intro q; simp [boundariesFrom]
  | cons seg rest ih =>
    intro q
    simp only [boundariesFrom, List.map_cons]
    have h1 : p + q + seg.width = p + (q + seg.width) := by omega
    rw [h1, ih (q + seg.width)]

theorem mem_boundariesFrom (row : List FieldSegment) (p i : Nat) :
    (p + i) ∈ boundariesFrom p row ↔ i ∈ boundariesFrom 0 row := by
  have h : boundariesFrom p row = (boundariesFrom 0 row).map (fun b => p + b) := by
    simpa using boundariesFrom_shift row p 0
  rw [h, List.mem_map]
  constructor
  · rintro ⟨a, ha, hpa⟩
    have : a = i := by omega
    subst this
    exact ha
  · intro hi
    exact ⟨i, hi, rfl⟩

theorem contMap_getD_pred (f : FieldSegment → Bool) (row : List FieldSegment)
    (i : Nat) (h0 : 0 < i) (hb : i ∉ rowBoundaries row) :
    (contMap f row).getD (i - 1) false = (contMap f row).getD i false := by
  induction row generalizing i with
  | nil => simp [contMap, List.getD]
  | cons seg rest ih =>
    simp only [rowBoundaries, boundariesFrom, List.mem_cons, Nat.zero_add] at hb
    push_neg at hb
    obtain ⟨hi0, hiw, hirest⟩ := hb
    rcases Nat.lt_trichotomy i seg.width with hlt | heq | hgt
    · have hlt' : i - 1 < seg.width := by omega
      rw [contMap, List.getD_append, List.getD_append]
      · simp [getD_replicate, hlt, hlt']
      · simpa using hlt
      · simpa using hlt'
    · exact absurd heq hiw
    · rw [contMap, List.getD_append_right, List.getD_append_right]
      · simp only [List.length_replicate]
        have hsub : i - 1 - seg.width = (i - seg.width) - 1 := by omega
        rw [hsub]
        apply ih (i - seg.width) (by omega)
        simp only [rowBoundaries, List.mem_cons]
        push_neg
        refine ⟨by omega, fun hmem => ?_⟩
        have : seg.width + (i - seg.width) ∈ boundariesFrom seg.width rest :=
          (mem_boundariesFrom rest seg.width (i - seg.width)).mpr hmem
        rw [show seg.width + (i - seg.width) = i by omega] at this
        exact hirest this
      · simpa using Nat.le_of_lt hgt
      · simp only [List.length_replicate]
        omega

/-! Characterisation of the separator characters. -/

theorem sepLineChar_eq (row prevRow : List FieldSegment) (bpr bit : Nat) :
    sepLineChar row prevRow bpr bit =
      if passBlank prevRow row bit then ' ' else '-' := by
  unfold sepLineChar passBlank
  rw [prev_continues_map_getD, curr_continuation_map_getD]

theorem sepJunctionChar_eq (row prevRow : List FieldSegment) (bpr bit : Nat)
    (h0 : 0 < bit) :
    sepJunctionChar row prevRow bpr bit =
      if !isBoundaryEither prevRow row bit && passBlank prevRow row (bit - 1)
         && passBlank prevRow row bit then ' ' else '+' := by
  unfold sepJunctionChar
  rw [if_neg (by omega : ¬ bit = 0)]
  by_cases hbd : bit ∈ rowBoundaries prevRow ∨ bit ∈ rowBoundaries row
  · rw [if_pos hbd]
    have : isBoundaryEither prevRow row bit = true := by
      simp [isBoundaryEither]
      tauto
    simp [this]
  · rw [if_neg hbd]
    push_neg at hbd
    have hbe : isBoundaryEither prevRow row bit = false := by
      simp [isBoundaryEither]
      tauto
    have hprev : segFlag (fun seg => seg.continues_next) prevRow (bit - 1) =
        segFlag (fun seg => seg.continues_next) prevRow bit := by
      rw [← contMap_getD, ← contMap_getD]
      exact contMap_getD_pred _ prevRow bit h0 hbd.1
    have hcurr : segFlag (fun seg => seg.is_continuation) row (bit - 1) =
        segFlag (fun seg => seg.is_continuation) row bit := by
      rw [← contMap_getD, ← contMap_getD]
      exact contMap_getD_pred _ row bit h0 hbd.2
    rw [prev_continues_map_getD, curr_continuation_map_getD, hbe]
    unfold passBlank
    rw [hprev, hcurr]
    cases segFlag (fun seg => seg.continues_next) prevRow bit <;>
      cases segFlag (fun seg => seg.is_continuation) row bit <;> rfl

theorem make_separator_v2_length (row prevRow : List FieldSegment)
    (chars : BoxChars) (bpr : Nat) :
    (make_separator_v2 row prevRow chars bpr).length = 2 * bpr + 1 := by
  unfold make_separator_v2
  rw [List.length_append, flatten_pairs_length
    (fun b => [sepJunctionChar row prevRow bpr b, sepLineChar row prevRow bpr b])
    (fun _ => rfl)]
  rfl

theorem make_separator_v2_getD_line (row prevRow : List FieldSegment)
    (chars : BoxChars) (bpr bit : Nat) (hbit : bit < bpr) (d : Char) :
    (make_separator_v2 row prevRow chars bpr).getD (2 * bit + 1) d =
      sepLineChar row prevRow bpr bit := by
  unfold make_separator_v2
  rw [List.getD_append]
  · rw [flatten_pairs_getD
      (fun b => [sepJunctionChar row prevRow bpr b, sepLineChar row prevRow bpr b])
      (fun _ => rfl) bpr bit 1 hbit (by omega)]
    rfl
  · rw [flatten_pairs_length
      (fun b => [sepJunctionChar row prevRow bpr b, sepLineChar row prevRow bpr b])
      (fun _ => rfl)]
    omega

theorem make_separator_v2_getD_junction (row prevRow : List FieldSegment)
    (chars : BoxChars) (bpr bit : Nat) (hbit : bit < bpr) (d : Char) :
    (make_separator_v2 row prevRow chars bpr).getD (2 * bit) d =
      sepJunctionChar row prevRow bpr bit := by
  unfold make_separator_v2
  rw [List.getD_append]
  · have h := flatten_pairs_getD
      (fun b => [sepJunctionChar row prevRow bpr b, sepLineChar row prevRow bpr b])
      (fun _ => rfl) bpr bit 0 hbit (by omega) d
    simpa using h
  · rw [flatten_pairs_length
      (fun b => [sepJunctionChar row prevRow bpr b, sepLineChar row prevRow bpr b])
      (fun _ => rfl)]
    omega

theorem make_separator_v2_getD_last (row prevRow : List FieldSegment)
    (chars : BoxChars) (bpr : Nat) (d : Char) :
    (make_separator_v2 row prevRow chars bpr).getD (2 * bpr) d = '+' := by
  unfold make_separator_v2
  rw [List.getD_append_right]
  · rw [flatten_pairs_length
      (fun b => [sepJunctionChar row prevRow bpr b, sepLineChar row prevRow bpr b])
      (fun _ => rfl)]
    simp
  · rw [flatten_pairs_length
      (fun b => [sepJunctionChar row prevRow bpr b, sepLineChar row prevRow bpr b])
      (fun _ => rfl)]

/-- Claim C1: at the boundary between two adjacent rows, the horizontal
cell of bit column `i` is a blank exactly when the segment occupying
bit `i` above has `continues_next` and the one below has
`is_continuation` (otherwise it is the horizontal line character); the
junction between columns `i-1` and `i` is blank exactly when that
position is no segment boundary of either row and both adjacent columns
are pass-through blanks; and a junction glyph stands at positions `0`
and `bitsPerRow` (and, by the boundary case of the junction equation, at
every segment boundary of either row). -/
theorem c1_separator_blank_pattern (row prevRow : List FieldSegment)
    (chars : BoxChars) (bpr bit : Nat) (hbit : bit < bpr) :
    ((make_separator_v2 row prevRow chars bpr).getD (2 * bit + 1) '?' =
      if passBlank prevRow row bit then ' ' else '-') ∧
    (0 < bit →
      (make_separator_v2 row prevRow chars bpr).getD (2 * bit) '?' =
        if !isBoundaryEither prevRow row bit && passBlank prevRow row (bit - 1)
           && passBlank prevRow row bit then ' ' else '+') ∧
    ((make_separator_v2 row prevRow chars bpr).getD 0 '?' = '+') ∧
    ((make_separator_v2 row prevRow chars bpr).getD (2 * bpr) '?' = '+') := by
  refine ⟨?_, ?_, ?_, ?_⟩
  · rw [make_separator_v2_getD_line row prevRow chars bpr bit hbit, sepLineChar_eq]
  · intro h0
    rw [make_separator_v2_getD_junction row prevRow chars bpr bit hbit,
      sepJunctionChar_eq row prevRow bpr bit h0]
  · have h := make_separator_v2_getD_junction row prevRow chars bpr 0
      (by omega) '?'
    simpa [sepJunctionChar] using h
  · exact make_separator_v2_getD_last row prevRow chars bpr '?'

/-- Witness for `c1_separator_blank_pattern` at a concrete boundary: a
16-bit field continuing from the previous row into the current one
(columns 0–7), next to a field that ends above (columns 8–15). -/
theorem c1_witness :
    (1 < 16) ∧
    ((make_separator_v2
        [⟨['A'], 8, false, true, false⟩, ⟨['B'], 8, false, false, false⟩]
        [⟨['A'], 8, false, false, true⟩, ⟨['C'], 8, false, false, false⟩]
        ASCII_CHARS 16).getD (2 * 1 + 1) '?' =
      if passBlank
          [⟨['A'], 8, false, false, true⟩, ⟨['C'], 8, false, false, false⟩]
          [⟨['A'], 8, false, true, false⟩, ⟨['B'], 8, false, false, false⟩] 1
        then ' ' else '-') := by
  exact ⟨by decide,
    (c1_separator_blank_pattern
      [⟨['A'], 8, false, true, false⟩, ⟨['B'], 8, false, false, false⟩]
      [⟨['A'], 8, false, false, true⟩, ⟨['C'], 8, false, false, false⟩]
      ASCII_CHARS 16 1 (by decide)).1⟩

/-! Border line lengths. -/

theorem flatten_replicate_length {α : Type} (w : Nat) (l : List α) :
    (List.replicate w l).flatten.length = w * l.length := by
  induction w with
  | zero => simp
  | succ w ih =>
    simp only [List.replicate, List.flatten_cons, List.length_append, ih]
    ring

theorem simpleBorder_body_length (row : List FieldSegment) :
    ((row.map (fun seg => (List.replicate seg.width (['-', '+'] : List Char)).flatten)).flatten).length
      = 2 * rowWidth row := by
  induction row with
  | nil => rfl
  | cons seg rest ih =>
    simp only [List.map_cons, List.flatten_cons, List.length_append, ih,
      flatten_replicate_length]
    simp [rowWidth]
    ring

theorem simpleBorder_length (row : List FieldSegment) :
    (simpleBorder row).length = 2 * rowWidth row + 1 := by
  unfold simpleBorder
  rw [List.length_cons, simpleBorder_body_length]

/-- Claim C10: an interior separator is always exactly `2*bitsPerRow + 1`
characters long, with bit columns beyond either adjacent row's width
padded and drawn as ruled (`'-'`) columns, whereas the top border of the
first row and the bottom border are `2*W + 1` characters long for `W`
the bit width of that row — so a short final row keeps a full-width
separator above it but gets a shorter bottom border. -/
theorem c10_line_lengths (row prevRow : List FieldSegment)
    (prev2 : Option (List FieldSegment)) (chars : BoxChars) (bpr : Nat) :
    ((make_separator_v2 row prevRow chars bpr).length = 2 * bpr + 1) ∧
    (∀ bit, bit < bpr → rowWidth prevRow ≤ bit ∨ rowWidth row ≤ bit →
      (make_separator_v2 row prevRow chars bpr).getD (2 * bit + 1) '?' = '-') ∧
    ((make_separator row prev2 chars true bpr).length = 2 * rowWidth row + 1) ∧
    ((make_bottom_separator row chars bpr).length = 2 * rowWidth row + 1) := by
  refine ⟨make_separator_v2_length row prevRow chars bpr, ?_, ?_, ?_⟩
  · intro bit hbit hbeyond
    rw [make_separator_v2_getD_line row prevRow chars bpr bit hbit, sepLineChar_eq]
    have hfalse : passBlank prevRow row bit = false := by
      unfold passBlank
      rcases hbeyond with h | h
      · rw [segFlag_eq_false_of_le _ prevRow bit h, Bool.false_and]
      · rw [segFlag_eq_false_of_le _ row bit h, Bool.and_false]
    rw [hfalse]
    rfl
  · simpa [make_separator] using simpleBorder_length row
  · simpa [make_bottom_separator] using simpleBorder_length row

/-- Witness for `c10_line_lengths`: previous row full (8 bits), current
row only 4 bits wide; column 5 of the separator above the short row is
still drawn as a ruled column. -/
theorem c10_witness :
    (5 < 8) ∧
    ((make_separator_v2 [⟨['E'], 4, false, false, false⟩]
        [⟨['D'], 8, false, false, false⟩] ASCII_CHARS 8).getD (2 * 5 + 1) '?' = '-') := by
  refine ⟨by decide, ?_⟩
  exact (c10_line_lengths [⟨['E'], 4, false, false, false⟩]
    [⟨['D'], 8, false, false, false⟩] none ASCII_CHARS 8).2.1 5 (by decide) (by decide)

/-! Step equations of the packing loop. -/

theorem packFixedAux_zero (name : List Char) (bpr fuel : Nat) (first : Bool)
    (st : PackState) : packFixedAux name bpr fuel 0 first st = some st := by
  cases fuel <;> rfl

theorem packFixedAux_fit_close (name : List Char) (bpr fuel m : Nat)
    (first : Bool) (st : PackState) (hfit : m + 1 ≤ bpr - st.curBit)
    (hfull : st.curBit + (m + 1) = bpr) :
    packFixedAux name bpr (fuel + 1) (m + 1) first st =
      some ⟨st.rows ++ [st.cur ++ [⟨name, m + 1, false, !first, false⟩]], [], 0⟩ := by
  simp only [packFixedAux]
  rw [if_pos hfit, if_pos hfull]

theorem packFixedAux_fit_open (name : List Char) (bpr fuel m : Nat)
    (first : Bool) (st : PackState) (hfit : m + 1 ≤ bpr - st.curBit)
    (hfull : ¬ st.curBit + (m + 1) = bpr) :
    packFixedAux name bpr (fuel + 1) (m + 1) first st =
      some ⟨st.rows, st.cur ++ [⟨name, m + 1, false, !first, false⟩],
        st.curBit + (m + 1)⟩ := by
  simp only [packFixedAux]
  rw [if_pos hfit, if_neg hfull]

theorem packFixedAux_nofit (name : List Char) (bpr fuel m : Nat)
    (first : Bool) (st : PackState) (hnofit : ¬ m + 1 ≤ bpr - st.curBit) :
    packFixedAux name bpr (fuel + 1) (m + 1) first st =
      packFixedAux name bpr fuel (m + 1 - (bpr - st.curBit)) false
        ⟨st.rows ++ [st.cur ++ [⟨name, bpr - st.curBit, false, !first, true⟩]],
         [], 0⟩ := by
  simp only [packFixedAux]
  rw [if_neg hnofit]

/-! Invariant preservation through the packing loop. -/

theorem Inv.push_fixed {bpr : Nat} {st : PackState} (hinv : Inv bpr st)
    (hbpr : 1 ≤ bpr) (name : List Char) (w : Nat) (hw : 1 ≤ w)
    (cont nxt : Bool) :
    Inv bpr ⟨st.rows ++ [st.cur ++ [⟨name, w, false, cont, nxt⟩]], [], 0⟩ := by
  constructor
  · exact hbpr
  · rfl
  · intro seg hseg
    simp at hseg
  · intro row hrow seg hseg
    rcases List.mem_append.mp hrow with h | h
    · exact hinv.rows_pos row h seg hseg
    · simp at h
      subst h
      rcases List.mem_append.mp hseg with h2 | h2
      · exact (hinv.cur_fixed seg h2).2
      · simp at h2
        subst h2
        exact hw
  · intro row hrow seg hseg hvar
    rcases List.mem_append.mp hrow with h | h
    · exact hinv.rows_var row h seg hseg hvar
    · simp at h
      subst h
      rcases List.mem_append.mp hseg with h2 | h2
      · simp [(hinv.cur_fixed seg h2).1] at hvar
      · simp at h2
        subst h2
        simp [FieldSegment.is_variable] at hvar

theorem sumWidths_push (st : PackState) (seg : FieldSegment) :
    sumWidths ⟨st.rows ++ [st.cur ++ [seg]], [], 0⟩ =
      sumWidths st + seg.width := by
  simp [sumWidths, rowWidth_append, rowWidth]
  omega

theorem FullRows.push {bpr : Nat} {st : PackState}
    (hfr : FullRows bpr st.rows) (seg : FieldSegment)
    (hw : rowWidth st.cur + seg.width = bpr) :
    FullRows bpr (st.rows ++ [st.cur ++ [seg]]) := by
  intro row hrow
  rcases List.mem_append.mp hrow with h | h
  · exact hfr row h
  · simp at h
    subst h
    rw [rowWidth_append]
    simpa [rowWidth] using hw

theorem packFixedAux_spec (name : List Char) (bpr : Nat) (hbpr : 1 ≤ bpr) :
    ∀ (fuel n : Nat) (first : Bool) (st : PackState), n ≤ fuel → Inv bpr st →
    ∃ st', packFixedAux name bpr fuel n first st = some st' ∧ Inv bpr st' ∧
      sumWidths st' = sumWidths st + n ∧
      (FullRows bpr st.rows → FullRows bpr st'.rows) := by
  intro fuel
  induction fuel with
  | zero =>
    intro n first st hn hinv
    have hn0 : n = 0 := by omega
    subst hn0
    exact ⟨st, packFixedAux_zero name bpr 0 first st, hinv, by simp, fun h => h⟩
  | succ fuel ih =>
    intro n first st hn hinv
    cases n with
    | zero =>
      exact ⟨st, packFixedAux_zero name bpr (fuel + 1) first st, hinv, by simp,
        fun h => h⟩
    | succ m =>
      have hlt := hinv.curBit_lt
      by_cases hfit : m + 1 ≤ bpr - st.curBit
      · by_cases hfull : st.curBit + (m + 1) = bpr
        · refine ⟨_, packFixedAux_fit_close name bpr fuel m first st hfit hfull,
            hinv.push_fixed hbpr name (m + 1) (by omega) (!first) false, ?_, ?_⟩
          · exact sumWidths_push st ⟨name, m + 1, false, !first, false⟩
          · intro hfr
            refine hfr.push _ ?_
            show rowWidth st.cur + (m + 1) = bpr
            rw [hinv.cur_width]
            omega
        · refine ⟨_, packFixedAux_fit_open name bpr fuel m first st hfit hfull,
            ?_, ?_, fun h => h⟩
          · constructor
            · show st.curBit + (m + 1) < bpr
              omega
            · show rowWidth (st.cur ++ [⟨name, m + 1, false, !first, false⟩]) =
                st.curBit + (m + 1)
              rw [rowWidth_append, hinv.cur_width]
              simp [rowWidth]
            · intro seg hseg
              rcases List.mem_append.mp hseg with h | h
              · exact hinv.cur_fixed seg h
              · simp at h
                subst h
                refine ⟨rfl, ?_⟩
                show 1 ≤ m + 1
                omega
            · exact hinv.rows_pos
            · exact hinv.rows_var
          · show sumWidths ⟨st.rows, st.cur ++ [⟨name, m + 1, false, !first, false⟩],
              st.curBit + (m + 1)⟩ = sumWidths st + (m + 1)
            simp [sumWidths, rowWidth_append, rowWidth]
            omega
      · have hspace : 1 ≤ bpr - st.curBit := by omega
        have hst1 := hinv.push_fixed hbpr name (bpr - st.curBit) hspace (!first) true
        obtain ⟨st', heq, hinv', hsum', hfr'⟩ :=
          ih (m + 1 - (bpr - st.curBit)) false
            ⟨st.rows ++ [st.cur ++ [⟨name, bpr - st.curBit, false, !first, true⟩]],
             [], 0⟩ (by omega) hst1
        refine ⟨st', ?_, hinv', ?_, ?_⟩
        · rw [packFixedAux_nofit name bpr fuel m first st hfit, heq]
        · rw [hsum', sumWidths_push st ⟨name, bpr - st.curBit, false, !first, true⟩]
          show sumWidths st + (bpr - st.curBit) + (m + 1 - (bpr - st.curBit)) =
            sumWidths st + (m + 1)
          omega
        · intro hfr
          refine hfr' (hfr.push _ ?_)
          show rowWidth st.cur + (bpr - st.curBit) = bpr
          rw [hinv.cur_width]
          omega

theorem packFields_spec (bpr : Nat) (hbpr : 1 ≤ bpr) :
    ∀ (fields : List Field) (st : PackState), Inv bpr st →
    ∃ st', packFields bpr fields st = some st' ∧ Inv bpr st' ∧
      ((∀ f ∈ fields, ∃ n, f.bits = FieldBits.fixed n) →
        sumWidths st' = sumWidths st + sumBits fields ∧
        (FullRows bpr st.rows → FullRows bpr st'.rows)) := by
  intro fields
  induction fields with
  | nil =>
    intro st hinv
    exact ⟨st, rfl, hinv, fun _ => ⟨by simp [sumBits], fun h => h⟩⟩
  | cons f fs ih =>
    intro st hinv
    cases hbits : f.bits with
    | var =>
      have hinv2 : Inv bpr
          ⟨(if st.cur = [] then st else ⟨st.rows ++ [st.cur], [], 0⟩).rows
              ++ [[⟨f.name, bpr, true, false, false⟩]],
           (if st.cur = [] then st else ⟨st.rows ++ [st.cur], [], 0⟩).cur,
           (if st.cur = [] then st else ⟨st.rows ++ [st.cur], [], 0⟩).curBit⟩ := by
        by_cases hcur : st.cur = []
        · rw [if_pos hcur]
          constructor
          · exact hinv.curBit_lt
          · exact hinv.cur_width
          · exact hinv.cur_fixed
          · intro row hrow seg hseg
            rcases List.mem_append.mp hrow with h | h
            · exact hinv.rows_pos row h seg hseg
            · simp at h
              subst h
              simp at hseg
              subst hseg
              show 1 ≤ bpr
              exact hbpr
          · intro row hrow seg hseg hvar
            rcases List.mem_append.mp hrow with h | h
            · exact hinv.rows_var row h seg hseg hvar
            · simp at h
              subst h
              simp at hseg
              subst hseg
              exact ⟨rfl, rfl, rfl, rfl⟩
        · rw [if_neg hcur]
          constructor
          · exact hbpr
          · rfl
          · intro seg hseg
            simp at hseg
          · intro row hrow seg hseg
            rcases List.mem_append.mp hrow with h | h
            · rcases List.mem_append.mp h with h2 | h2
              · exact hinv.rows_pos row h2 seg hseg
              · simp at h2
                subst h2
                exact (hinv.cur_fixed seg hseg).2
            · simp at h
              subst h
              simp at hseg
              subst hseg
              show 1 ≤ bpr
              exact hbpr
          · intro row hrow seg hseg hvar
            rcases List.mem_append.mp hrow with h | h
            · rcases List.mem_append.mp h with h2 | h2
              · exact hinv.rows_var row h2 seg hseg hvar
              · simp at h2
                subst h2
                simp [(hinv.cur_fixed seg hseg).1] at hvar
            · simp at h
              subst h
              simp at hseg
              subst hseg
              exact ⟨rfl, rfl, rfl, rfl⟩
      obtain ⟨st', heq', hinv', _⟩ := ih _ hinv2
      refine ⟨st', ?_, hinv', fun hall => ?_⟩
      · simp only [packFields, hbits]
        exact heq'
      · obtain ⟨n, hn⟩ := hall f (by simp)
        rw [hbits] at hn
        cases hn
    | fixed n =>
      obtain ⟨st1, heq1, hinv1, hsum1, hfr1⟩ :=
        packFixedAux_spec f.name bpr hbpr n n true st (Nat.le_refl n) hinv
      obtain ⟨st', heq', hinv', hrest⟩ := ih st1 hinv1
      refine ⟨st', ?_, hinv', fun hall => ?_⟩
      · simp only [packFields, hbits, heq1]
        exact heq'
      · obtain ⟨hsum2, hfr2⟩ := hrest (fun g hg => hall g (List.mem_cons_of_mem f hg))
        constructor
        · rw [hsum2, hsum1]
          simp [sumBits, hbits]
          omega
        · intro hfr
          exact hfr2 (hfr1 hfr)

theorem buildRows_spec (bpr : Nat) (fields : List Field) (hbpr : 1 ≤ bpr) :
    ∃ rows, buildRows bpr fields = some rows ∧
      (∀ row ∈ rows, ∀ seg ∈ row, 1 ≤ seg.width) ∧
      (∀ row ∈ rows, ∀ seg ∈ row, seg.is_variable = true →
        seg.is_continuation = false ∧ seg.continues_next = false ∧
        seg.width = bpr ∧ row = [seg]) := by
  have hinit : Inv bpr ⟨[], [], 0⟩ := by
    constructor
    · show 0 < bpr
      omega
    · rfl
    · intro seg hseg
      simp at hseg
    · intro row hrow
      simp at hrow
    · intro row hrow
      simp at hrow
  obtain ⟨st, heq, hinv, _⟩ := packFields_spec bpr hbpr fields ⟨[], [], 0⟩ hinit
  refine ⟨finalizeRows st, ?_, ?_, ?_⟩
  · unfold buildRows
    rw [heq]
  · intro row hrow seg hseg
    unfold finalizeRows at hrow
    by_cases hcur : st.cur = []
    · rw [if_pos hcur] at hrow
      exact hinv.rows_pos row hrow seg hseg
    · rw [if_neg hcur] at hrow
      rcases List.mem_append.mp hrow with h | h
      · exact hinv.rows_pos row h seg hseg
      · simp at h
        subst h
        exact (hinv.cur_fixed seg hseg).2
  · intro row hrow seg hseg hvar
    unfold finalizeRows at hrow
    by_cases hcur : st.cur = []
    · rw [if_pos hcur] at hrow
      exact hinv.rows_var row hrow seg hseg hvar
    · rw [if_neg hcur] at hrow
      rcases List.mem_append.mp hrow with h | h
      · exact hinv.rows_var row h seg hseg hvar
      · simp at h
        subst h
        simp [(hinv.cur_fixed seg hseg).1] at hvar

/-- Claim C2: the row packer's fixed-width cases.  A fitting field is
appended as one segment of its full remaining width with no
continuation, and the row closes exactly when it becomes full; a
non-fitting field contributes a segment of exactly the remaining row
space with `continues_next = true`, closes the row, and the fitting
decision repeats with the reduced bit count for the same field; after
the last field a non-empty partial row is still emitted, and (concrete
instance) its total width may be less than `bitsPerRow`. -/
theorem c2_row_packer_cases (name : List Char) (bpr fuel n : Nat) (first : Bool)
    (st : PackState) (hn : 1 ≤ n) :
    (n ≤ bpr - st.curBit →
      packFixedAux name bpr (fuel + 1) n first st =
        some (if st.curBit + n = bpr
          then ⟨st.rows ++ [st.cur ++ [⟨name, n, false, !first, false⟩]], [], 0⟩
          else ⟨st.rows, st.cur ++ [⟨name, n, false, !first, false⟩],
            st.curBit + n⟩)) ∧
    (bpr - st.curBit < n →
      packFixedAux name bpr (fuel + 1) n first st =
        packFixedAux name bpr fuel (n - (bpr - st.curBit)) false
          ⟨st.rows ++ [st.cur ++ [⟨name, bpr - st.curBit, false, !first, true⟩]],
           [], 0⟩) ∧
    (∀ st2 : PackState, st2.cur ≠ [] → finalizeRows st2 = st2.rows ++ [st2.cur]) ∧
    (buildRows 32 [⟨['A'], FieldBits.fixed 5⟩] =
        some [[⟨['A'], 5, false, false, false⟩]] ∧
      rowWidth [⟨['A'], 5, false, false, false⟩] < 32) := by
  obtain ⟨m, rfl⟩ : ∃ m, n = m + 1 := ⟨n - 1, by omega⟩
  refine ⟨?_, ?_, ?_, by decide, by decide⟩
  · intro hfit
    by_cases hfull : st.curBit + (m + 1) = bpr
    · rw [packFixedAux_fit_close name bpr fuel m first st hfit hfull, if_pos hfull]
    · rw [packFixedAux_fit_open name bpr fuel m first st hfit hfull, if_neg hfull]
  · intro hnofit
    exact packFixedAux_nofit name bpr fuel m first st (by omega)
  · intro st2 h
    unfold finalizeRows
    rw [if_neg h]

/-- Witness for `c2_row_packer_cases`: a 5-bit field into an 8-bit row
with 3 bits already used fits exactly and closes the row. -/
theorem c2_witness :
    packFixedAux ['B'] 8 4 5 true ⟨[], [⟨['A'], 3, false, false, false⟩], 3⟩ =
      some ⟨[[⟨['A'], 3, false, false, false⟩, ⟨['B'], 5, false, false, false⟩]],
        [], 0⟩ := by
  have h := (c2_row_packer_cases ['B'] 8 3 5 true
    ⟨[], [⟨['A'], 3, false, false, false⟩], 3⟩ (by decide)).1 (by decide)
  rw [h]
  decide

/-- Claim C4: every segment of a variable-length field sits alone in a
dedicated row of width exactly `bitsPerRow` with
`is_continuation = false` and `continues_next = false`; and when a
partially-filled row is in progress as a variable field is reached, that
row is closed first. -/
theorem c4_variable_field_invariant (bpr : Nat) (fields : List Field)
    (rows : List (List FieldSegment)) (hbpr : 1 ≤ bpr)
    (hrows : buildRows bpr fields = some rows) :
    (∀ row ∈ rows, ∀ seg ∈ row, seg.is_variable = true →
      seg.is_continuation = false ∧ seg.continues_next = false ∧
      seg.width = bpr ∧ row = [seg]) ∧
    (∀ (nm : List Char) (fs : List Field) (st : PackState), st.cur ≠ [] →
      packFields bpr (⟨nm, FieldBits.var⟩ :: fs) st =
        packFields bpr fs
          ⟨st.rows ++ [st.cur] ++ [[⟨nm, bpr, true, false, false⟩]], [], 0⟩) := by
  constructor
  · obtain ⟨rows0, hrows0, _, hvar0⟩ := buildRows_spec bpr fields hbpr
    rw [hrows0] at hrows
    cases hrows
    exact hvar0
  · intro nm fs st h
    simp only [packFields]
    rw [if_neg h]

/-- Witness for `c4_variable_field_invariant`: a 5-bit field followed by
a variable field with `bitsPerRow = 8`; the partial row is closed and
the variable field's segment fills its own dedicated row. -/
theorem c4_witness :
    (⟨['P'], 8, true, false, false⟩ : FieldSegment).is_continuation = false ∧
    (⟨['P'], 8, true, false, false⟩ : FieldSegment).continues_next = false ∧
    (⟨['P'], 8, true, false, false⟩ : FieldSegment).width = 8 ∧
    ([⟨['P'], 8, true, false, false⟩] : List FieldSegment) =
      [⟨['P'], 8, true, false, false⟩] :=
  (c4_variable_field_invariant 8
    [⟨['A'], FieldBits.fixed 5⟩, ⟨['P'], FieldBits.var⟩]
    [[⟨['A'], 5, false, false, false⟩], [⟨['P'], 8, true, false, false⟩]]
    (by decide) (by decide)).1
    [⟨['P'], 8, true, false, false⟩] (by decide)
    ⟨['P'], 8, true, false, false⟩ (by decide) (by decide)

/-- Claim C9: with `bitsPerRow ≥ 1` and positive fixed widths the
packing pass and the whole renderer terminate (the fuelled loop always
returns `some`); on every invariant-respecting state the free space of
the current row is at least 1, and a non-fitting iteration strictly
decreases the field's remaining bit count. -/
theorem c9_termination (fields : List Field) (bpr : Nat) (hbpr : 1 ≤ bpr)
    (hpos : ∀ f ∈ fields, ∀ n, f.bits = FieldBits.fixed n → 1 ≤ n) :
    (∃ rows, buildRows bpr fields = some rows) ∧
    (∀ (show_ruler : Bool) (style : List Char), ∃ lines,
      render_diagram_lines fields bpr show_ruler style = some lines) ∧
    (∀ st : PackState, st.curBit < bpr → 1 ≤ bpr - st.curBit) ∧
    (∀ k space : Nat, 1 ≤ space → space < k → k - space < k) := by
  obtain ⟨rows, hrows, _, _⟩ := buildRows_spec bpr fields hbpr
  refine ⟨⟨rows, hrows⟩, ?_, ?_, ?_⟩
  · intro sr style
    refine ⟨(if sr then generate_ruler bpr else []) ++
      rowsLines (get_box_chars style) bpr none rows ++
      (match rows.getLast? with
       | some lastRow => [make_bottom_separator lastRow (get_box_chars style) bpr]
       | none => []), ?_⟩
    simp only [render_diagram_lines, hrows]
  · intro st h
    omega
  · intro k space h1 h2
    omega

/-- Witness for `c9_termination` at `bitsPerRow = 8` with one positive
5-bit field and the initial packing state. -/
theorem c9_witness :
    ((⟨[], [], 0⟩ : PackState).curBit < 8) ∧
    (1 ≤ 8 - (⟨[], [], 0⟩ : PackState).curBit) := by
  refine ⟨by decide, ?_⟩
  exact (c9_termination [⟨['A'], FieldBits.fixed 5⟩] 8 (by decide)
    (by intro f hf n hn
        rcases List.mem_cons.mp hf with h | h
        · subst h
          cases hn
          omega
        · simp at h)).2.2.1 ⟨[], [], 0⟩ (by decide)

/-! Row and line counting for claim C6. -/

theorem rowsLines_length (chars : BoxChars) (bpr : Nat)
    (rows : List (List FieldSegment)) :
    ∀ prev, (rowsLines chars bpr prev rows).length = 2 * rows.length := by
  induction rows with
  | nil =>
    intro prev
    rfl
  | cons row rest ih =>
    intro prev
    simp only [rowsLines, List.length_cons, ih (some row)]
    omega

theorem getLast?_eq_some_of_ne_nil {α : Type} (l : List α) (h : l ≠ []) :
    ∃ a, l.getLast? = some a := by
  cases l with
  | nil => exact absurd rfl h
  | cons a rest =>
    exact ⟨(a :: rest).getLast (by simp), List.getLast?_eq_getLast _ _⟩

theorem sum_rowWidth_full (bpr : Nat) (rows : List (List FieldSegment))
    (h : FullRows bpr rows) : (rows.map rowWidth).sum = bpr * rows.length := by
  induction rows with
  | nil => simp
  | cons r rest ih =>
    simp only [List.map_cons, List.sum_cons, List.length_cons]
    rw [h r (by simp), ih (fun row hrow => h row (List.mem_cons_of_mem r hrow))]
    ring

/-- Claim C6 (amended: the field list must be non-empty, with the
data-model invariant of positive widths and a positive `bitsPerRow`
made explicit): a fixed-width-only field list whose widths sum to a
multiple of `bitsPerRow` packs into exactly `sum/bitsPerRow` rows, and
the ruler-less rendering has `2*(sum/bitsPerRow) + 1` lines — one
content line per row plus one separator line more than content lines
(a separator above each row and the bottom border). -/
theorem c6_fixed_multiple_rows (fields : List Field) (bpr : Nat)
    (style : List Char) (hne : fields ≠ [])
    (hfix : ∀ f ∈ fields, ∃ n, f.bits = FieldBits.fixed n ∧ 1 ≤ n)
    (hbpr : 1 ≤ bpr) (hdvd : sumBits fields % bpr = 0) :
    ∃ rows lines, buildRows bpr fields = some rows ∧
      rows.length = sumBits fields / bpr ∧
      render_diagram_lines fields bpr false style = some lines ∧
      lines.length = 2 * (sumBits fields / bpr) + 1 := by
  have hinit : Inv bpr ⟨[], [], 0⟩ := by
    constructor
    · show 0 < bpr
      omega
    · rfl
    · intro seg hseg
      simp at hseg
    · intro row hrow
      simp at hrow
    · intro row hrow
      simp at hrow
  obtain ⟨st, heq, hinv, hcond⟩ := packFields_spec bpr hbpr fields ⟨[], [], 0⟩ hinit
  obtain ⟨hsum, hfull⟩ := hcond (fun f hf => (hfix f hf).imp (fun n h => h.1))
  have hfr : FullRows bpr st.rows := hfull (by intro row h; simp at h)
  have hS : sumWidths st = sumBits fields := by
    rw [hsum]
    simp [sumWidths, rowWidth]
  have hsplit : sumBits fields = bpr * st.rows.length + st.curBit := by
    rw [← hS]
    unfold sumWidths
    rw [sum_rowWidth_full bpr st.rows hfr, hinv.cur_width]
  have hcb : st.curBit = 0 := by
    have h1 : bpr ∣ sumBits fields := Nat.dvd_of_mod_eq_zero hdvd
    have h2 : bpr ∣ bpr * st.rows.length := Dvd.intro _ rfl
    have h3 : bpr ∣ st.curBit := by
      have h4 : st.curBit = sumBits fields - bpr * st.rows.length := by omega
      rw [h4]
      exact Nat.dvd_sub' h1 h2
    exact Nat.eq_zero_of_dvd_of_lt h3 hinv.curBit_lt
  have hcur : st.cur = [] :=
    rowWidth_nil_of_pos st.cur (fun seg hseg => (hinv.cur_fixed seg hseg).2)
      (by rw [hinv.cur_width, hcb])
  have hbuild : buildRows bpr fields = some st.rows := by
    simp [buildRows, heq, finalizeRows, hcur]
  have hSmul : sumBits fields = bpr * st.rows.length := by omega
  have hlen : st.rows.length = sumBits fields / bpr := by
    rw [hSmul, Nat.mul_div_cancel_left _ (by omega : 0 < bpr)]
  have hS1 : 1 ≤ sumBits fields := by
    cases fields with
    | nil => exact absurd rfl hne
    | cons f fs =>
      obtain ⟨n, hb, hn⟩ := hfix f (by simp)
      simp [sumBits, hb]
      omega
  have hrne : st.rows ≠ [] := by
    intro h
    rw [h] at hSmul
    simp at hSmul
    omega
  obtain ⟨lastRow, hlast⟩ := getLast?_eq_some_of_ne_nil st.rows hrne
  refine ⟨st.rows, rowsLines (get_box_chars style) bpr none st.rows ++
      [make_bottom_separator lastRow (get_box_chars style) bpr],
    hbuild, hlen, ?_, ?_⟩
  · simp only [render_diagram_lines, hbuild, hlast]
    rfl
  · rw [List.length_append, rowsLines_length (get_box_chars style) bpr st.rows none,
      hlen]
    rfl

/-- Counterexample to claim C6 as stated: the empty field list consists
only of fixed-width fields and its widths sum to 0, a multiple of 32,
yet the ruler-less rendering has no lines at all — in particular it does
not contain one separator line more than its 0 content lines. -/
theorem c6_counterexample :
    (∀ f ∈ ([] : List Field), ∃ n, f.bits = FieldBits.fixed n ∧ 1 ≤ n) ∧
    sumBits [] % 32 = 0 ∧
    render_diagram_lines [] 32 false ("ascii".toList) = some [] ∧
    ¬ (([] : List (List Char)).length = 2 * (sumBits [] / 32) + 1) := by
  refine ⟨?_, by decide, by decide, by decide⟩
  intro f hf
  simp at hf

/-- Witness for `c6_fixed_multiple_rows`: two 16-bit fields at
`bitsPerRow = 16` render (without ruler) into exactly 5 lines:
2 content rows and 3 separators. -/
theorem c6_witness :
    (render_diagram_lines [⟨['A'], FieldBits.fixed 16⟩, ⟨['B'], FieldBits.fixed 16⟩]
      16 false ("ascii".toList)).map List.length = some 5 := by
  obtain ⟨rows, lines, _, _, hr, hl⟩ := c6_fixed_multiple_rows
    [⟨['A'], FieldBits.fixed 16⟩, ⟨['B'], FieldBits.fixed 16⟩] 16 ("ascii".toList)
    (by decide)
    (by intro f hf
        rcases List.mem_cons.mp hf with h | h
        · subst h
          exact ⟨16, rfl, by omega⟩
        · rcases List.mem_cons.mp h with h2 | h2
          · subst h2
            exact ⟨16, rfl, by omega⟩
          · simp at h2)
    (by decide) (by decide)
  rw [hr]
  show some lines.length = some 5
  rw [hl]
  decide

/-! Content-row rendering (claim C5). -/

theorem pyCenter_length (s : List Char) (width : Nat) (h : s.length ≤ width) :
    (pyCenter s width).length = width := by
  unfold pyCenter
  by_cases hw : width ≤ s.length
  · rw [if_pos hw]
    omega
  · rw [if_neg hw]
    simp only [List.length_append, List.length_replicate]
    have hand : (width - s.length) &&& width &&& 1 ≤ 1 := by
      have h2 := Nat.and_one_is_mod ((width - s.length) &&& width)
      omega
    omega

theorem displayCell_length (seg : FieldSegment) :
    (displayCell seg).length = seg.width * 2 - 1 := by
  unfold displayCell
  by_cases hc : seg.continues_next = true
  · simp [hc]
  · rw [if_neg hc]
    by_cases hl : seg.width * 2 - 1 < seg.name.length
    · rw [if_pos hl, List.length_take]
      omega
    · rw [if_neg hl]
      exact pyCenter_length seg.name _ (by omega)

theorem foldl_append_border {α β : Type} (g : β → List α) (e : List α)
    (l : List β) (init : List α) :
    l.foldl (fun acc b => acc ++ g b ++ e) init =
      init ++ (l.map (fun b => g b ++ e)).flatten := by
  induction l generalizing init with
  | nil => simp
  | cons b t ih =>
    simp only [List.foldl, List.map_cons, List.flatten_cons]
    rw [ih (init ++ g b ++ e)]
    simp [List.append_assoc]

theorem render_field_row_eq (row : List FieldSegment) (chars : BoxChars)
    (hv : Bool) :
    render_field_row row chars hv =
      (if hv then chars.v_var else chars.v) ::
        (row.map (fun seg => displayCell seg ++
          [if hv then chars.v_var else chars.v])).flatten := by
  unfold render_field_row
  rw [foldl_append_border displayCell [if hv then chars.v_var else chars.v] row
    [if hv then chars.v_var else chars.v]]
  rfl

/-- Claim C5: in a rendered row, each segment's display cell is exactly
`2*width - 1` characters wide; a segment with `continues_next = true`
renders as blank space while the final segment shows the name, centered,
or truncated to the cell width with no ellipsis when longer; and all of
the row's vertical borders switch to the theme's variable glyph exactly
when the row contains a variable-length segment. -/
theorem c5_content_row_rendering (fields : List Field) (bpr : Nat)
    (rows : List (List FieldSegment)) (row : List FieldSegment)
    (chars : BoxChars) (hbpr : 1 ≤ bpr)
    (hrows : buildRows bpr fields = some rows) (hrow : row ∈ rows) :
    (render_field_row row chars (row.any (fun seg => seg.is_variable)) =
      (if row.any (fun seg => seg.is_variable) then chars.v_var else chars.v) ::
        (row.map (fun seg => displayCell seg ++
          [if row.any (fun seg => seg.is_variable) then chars.v_var
           else chars.v])).flatten) ∧
    (∀ seg ∈ row, (displayCell seg).length = seg.width * 2 - 1) ∧
    (∀ seg ∈ row, seg.continues_next = true →
      displayCell seg = List.replicate (seg.width * 2 - 1) ' ') ∧
    (∀ seg ∈ row, seg.continues_next = false →
      displayCell seg =
        if seg.width * 2 - 1 < seg.name.length
        then seg.name.take (seg.width * 2 - 1)
        else pyCenter seg.name (seg.width * 2 - 1)) := by
  refine ⟨render_field_row_eq row chars _, ?_, ?_, ?_⟩
  · intro seg hseg
    exact displayCell_length seg
  · intro seg hseg hc
    unfold displayCell
    rw [if_pos hc]
  · intro seg hseg hc
    unfold displayCell
    rw [if_neg (by simp [hc])]

/-- Witness for `c5_content_row_rendering`: the single 3-bit field `A`
packed at `bitsPerRow = 4` (a partial final row). -/
theorem c5_witness :
    render_field_row ([⟨['A'], 3, false, false, false⟩] : List FieldSegment)
        ASCII_CHARS
        (([⟨['A'], 3, false, false, false⟩] : List FieldSegment).any
          (fun seg => seg.is_variable)) =
      (if ([⟨['A'], 3, false, false, false⟩] : List FieldSegment).any
            (fun seg => seg.is_variable)
       then ASCII_CHARS.v_var else ASCII_CHARS.v) ::
        (([⟨['A'], 3, false, false, false⟩] : List FieldSegment).map
          (fun seg => displayCell seg ++
            [if ([⟨['A'], 3, false, false, false⟩] : List FieldSegment).any
                  (fun seg => seg.is_variable)
             then ASCII_CHARS.v_var else ASCII_CHARS.v])).flatten :=
  (c5_content_row_rendering [⟨['A'], FieldBits.fixed 3⟩] 4
    [[⟨['A'], 3, false, false, false⟩]] [⟨['A'], 3, false, false, false⟩]
    ASCII_CHARS (by decide) (by decide) (by decide)).1

/-! Ruler structure (claim C7). -/

theorem generate_ruler_eq (bpr : Nat) :
    generate_ruler bpr = [byteLineSpec bpr, bitLineSpec bpr] := by
  unfold generate_ruler byteLineSpec bitLineSpec byteLineRaw bitLineRaw
  rw [foldl_append_eq (fun k => padRight19 (natChars k)) (List.range (bpr / 8)) [' '],
    foldl_append_eq (fun i => [Nat.digitChar (i % 10), ' ']) (List.range bpr) [' ']]
  rfl

/-- Claim C7 (amended: the byte labels are left-aligned in 19-character
fields — not 16 — with the line truncated to `2*bitsPerRow` characters
and right-stripped, and the bit-offset line is right-stripped): with the
ruler enabled the output begins with exactly these two header lines,
derived only from `bitsPerRow`. -/
theorem c7_ruler_structure (bpr : Nat) (fields : List Field) (style : List Char)
    (lines : List (List Char))
    (h : render_diagram_lines fields bpr true style = some lines) :
    generate_ruler bpr = [byteLineSpec bpr, bitLineSpec bpr] ∧
    (generate_ruler bpr).length = 2 ∧
    lines.take 2 = [byteLineSpec bpr, bitLineSpec bpr] := by
  refine ⟨generate_ruler_eq bpr, rfl, ?_⟩
  simp only [render_diagram_lines] at h
  cases hb : buildRows bpr fields with
  | none =>
    rw [hb] at h
    simp at h
  | some rows =>
    rw [hb] at h
    simp only [Option.some.injEq] at h
    rw [← h, generate_ruler_eq bpr]
    simp

/-- Witness for `c7_ruler_structure` at `bitsPerRow = 8` on a one-field
diagram. -/
theorem c7_witness :
    generate_ruler 8 = [byteLineSpec 8, bitLineSpec 8] :=
  (c7_ruler_structure 8 [⟨['A'], FieldBits.fixed 8⟩] ("ascii".toList)
    ((render_diagram_lines [⟨['A'], FieldBits.fixed 8⟩] 8 true
      ("ascii".toList)).getD [])
    (by decide)).1

/-- Counterexample to claim C7 as stated: at `bitsPerRow = 32` the byte
line actually rendered (first output line, also `generate_ruler 32`'s
first line) places each byte label in a 19-character field, and differs
from the byte line the claim describes, whose labels sit in 16-character
fields (two ruler characters per bit). -/
theorem c7_counterexample :
    (render_diagram_lines [⟨['A'], FieldBits.fixed 32⟩] 32 true
        ("ascii".toList)).map (fun ls => ls.getD 0 []) =
      some ((generate_ruler 32).getD 0 []) ∧
    (generate_ruler 32).getD 0 [] ≠ byteLineClaim 32 := by
  exact ⟨by decide, by decide⟩

/-! Theme usage in separator lines (claim C3). -/

/-- Claim C3 is violated by the code: the separator builders receive the
theme but emit the literal characters `'+'` and `'-'`, so with the
`"unicode"` style the top border of a diagram is plain ASCII and
contains none of the selected theme's corner, horizontal or junction
glyphs (only the content rows' vertical borders are themed). -/
theorem c3_theme_ignored_in_separators :
    (render_diagram_lines [⟨['A'], FieldBits.fixed 8⟩] 8 false
        ("unicode".toList)).map (fun ls => ls.getD 0 []) =
      some ("+-+-+-+-+-+-+-+-+".toList) ∧
    get_box_chars ("unicode".toList) = UNICODE_CHARS ∧
    UNICODE_CHARS.tl ∉ "+-+-+-+-+-+-+-+-+".toList ∧
    UNICODE_CHARS.h ∉ "+-+-+-+-+-+-+-+-+".toList ∧
    UNICODE_CHARS.tj ∉ "+-+-+-+-+-+-+-+-+".toList := by
  exact ⟨by decide, by decide, by decide, by decide, by decide⟩

/-! Parser error handling (claim C8). -/

/-- Claim C8 is violated by `parse_json`: the input
`{"fields": [{"name": "", "bits": 8}]}` is accepted and yields a field
whose name is the empty string (the source never inspects the `name`
value), while `parse_inline` does reject an empty name, and both
parsers reject an empty field list. -/
theorem c8_parse_json_accepts_empty_name :
    parse_json (Json.obj [("fields".toList,
        Json.arr [Json.obj [("name".toList, Json.str []),
                            ("bits".toList, Json.num 8)]])]) =
      Except.ok [⟨Json.str [], FieldBits.fixed 8⟩] ∧
    parse_inline (":8".toList) =
      Except.error (InlineErr.emptyFieldName (":8".toList)) ∧
    parse_inline ([] : List Char) = Except.error InlineErr.noFields := by
  exact ⟨rfl, rfl, rfl⟩

end Pktfmt
